import Mathlib

/-!
# Verification of the two-layer feed-forward neural network core

Shallow embedding of `src/main.cpp`: the transfer (activation) functions,
the `Layer` structure with its operations (`propagate`, `updateWeights`,
`computeOutputDeltas`, `computeDeltas`), random initialization via the
C `rand()` source, and the `NeuralNet` training loop.

`float` arithmetic is modelled over `ℝ`; buffers are `List ℝ` read through
`List.getD` (out-of-range reads yield the default `0`, which never matters
under the stated length preconditions).
-/

open Real

/-! ## Transfer functions (main.cpp lines 33-43) -/

/-- `sigmoid` from the source: `1.0f / (1.0f + expf(-fValue))`. -/
noncomputable def sigmoid (fValue : ℝ) : ℝ := 1 / (1 + Real.exp (-fValue))

/-- `elu` from the source: `fValue >= 0.0f ? fValue : (expf(fValue) - 1.0f)`. -/
noncomputable def elu (fValue : ℝ) : ℝ :=
  if fValue ≥ 0 then fValue else Real.exp fValue - 1

/-- `eluDerivative` from the source: `fValue >= 0.0f ? 1.0f : expf(fValue)`. -/
noncomputable def eluDerivative (fValue : ℝ) : ℝ :=
  if fValue ≥ 0 then 1 else Real.exp fValue

/-- `transfer` from the source: the active choice is `elu`. -/
noncomputable def transfer (fValue : ℝ) : ℝ := elu fValue

/-- `transferDerivative` from the source: the active choice is `eluDerivative`. -/
noncomputable def transferDerivative (fValue : ℝ) : ℝ := eluDerivative fValue

/-- On negative inputs `transfer` agrees with `fun x => exp x - 1`. -/
lemma transfer_of_neg {x : ℝ} (hx : x < 0) : transfer x = Real.exp x - 1 := by
  simp [transfer, elu, not_le.mpr hx]

/-- The true derivative of `transfer` at `-1` is `exp (-1)`:
near `-1` the function coincides with `fun x => exp x - 1`. -/
lemma transfer_hasDerivAt_neg_one : HasDerivAt transfer (Real.exp (-1)) (-1) := by
  have hexp : HasDerivAt (fun x : ℝ => Real.exp x - 1) (Real.exp (-1)) (-1) :=
    (Real.hasDerivAt_exp (-1)).sub_const 1
  apply hexp.congr_of_eventuallyEq
  have hmem : Set.Iio (0 : ℝ) ∈ nhds (-1 : ℝ) :=
    isOpen_Iio.mem_nhds (by norm_num)
  filter_upwards [hmem] with x hx
  exact transfer_of_neg hx

/-- At `-1` the composite `transferDerivative (transfer (-1))` evaluates to
`exp (exp (-1) - 1)`. -/
lemma transferDerivative_transfer_neg_one :
    transferDerivative (transfer (-1)) = Real.exp (Real.exp (-1) - 1) := by
  have h1 : transfer (-1) = Real.exp (-1) - 1 := transfer_of_neg (by norm_num)
  have h2 : Real.exp (-1) - 1 < 0 := by
    have := Real.exp_lt_one_iff.mpr (show (-1 : ℝ) < 0 by norm_num)
    linarith
  rw [h1]
  simp [transferDerivative, eluDerivative, not_le.mpr h2]

/-- **C1.** The spec asserts the activation contract
`transferDerivative (transfer x) = d/dx transfer x` for the default
exponential-linear pair.  The code violates it on every negative input: at
`x = -1` the true derivative of `transfer` is `exp (-1)`, but the code's
composite yields `exp (exp (-1) - 1) ≠ exp (-1)`.  (`eluDerivative` is the
derivative expressed in terms of the activation's *input*; the call sites
feed it the activation's *output*.) -/
theorem transfer_contract_fails_at_neg_one :
    HasDerivAt transfer (Real.exp (-1)) (-1) ∧
      transferDerivative (transfer (-1)) ≠ Real.exp (-1) := by
  refine ⟨transfer_hasDerivAt_neg_one, ?_⟩
  rw [transferDerivative_transfer_neg_one]
  intro h
  have h2 : Real.exp (-1) - 1 = -1 := Real.exp_injective h
  have h3 : Real.exp (-1) = 0 := by linarith
  exact (Real.exp_pos (-1)).ne' h3

/-! ## Random initialization (main.cpp lines 46-58)

The process-global C PRNG is modelled as a stream `rand : ℕ → ℕ` of draws
(the `k`-th call to `rand()` returns `rand k`), each bounded by `randMax`
(the platform's `RAND_MAX`, with `0 ≤ rand() ≤ RAND_MAX` inclusive). -/

/-- `randomFloat` from the source:
`(float(rand()) / float(RAND_MAX)) * 0.4f + 0.5f`, where `r` is the value
returned by this call's `rand()`. -/
noncomputable def randomFloat (randMax r : ℕ) : ℝ :=
  ((r : ℝ) / (randMax : ℝ)) * 0.4 + 0.5

/-- `randomize` from the source: fills `count` slots with successive
`randomFloat` draws; `start` is the index of the first `rand()` call used. -/
noncomputable def randomize (randMax : ℕ) (rand : ℕ → ℕ) (start count : ℕ) :
    List ℝ :=
  (List.range count).map (fun i => randomFloat randMax (rand (start + i)))

/-! ## Layer (main.cpp lines 70-160) -/

/-- The `Layer` struct: `m_inputCount`, `m_outputCount`, the flat row-major
weight buffer `m_pWeights` (row `o` occupies indices
`inputCount * o + i`, `i < inputCount`) and the bias buffer `m_pBiases`. -/
structure Layer where
  inputCount : ℕ
  outputCount : ℕ
  weights : List ℝ
  biases : List ℝ

/-- Buffer-size invariant maintained by the code: `m_pWeights` holds
`inputCount * outputCount` floats and `m_pBiases` holds `outputCount`. -/
def Layer.WF (l : Layer) : Prop :=
  l.weights.length = l.inputCount * l.outputCount ∧
    l.biases.length = l.outputCount

/-- The `Layer(inputCount, outputCount)` constructor: allocates the two
buffers and fills them by `randomize` — weights first (consuming
`inputCount * outputCount` draws), then biases. -/
noncomputable def Layer.construct (randMax : ℕ) (rand : ℕ → ℕ)
    (inputCount outputCount : ℕ) : Layer :=
  { inputCount := inputCount
    outputCount := outputCount
    weights := randomize randMax rand 0 (inputCount * outputCount)
    biases := randomize randMax rand (inputCount * outputCount) outputCount }

/-- The inner accumulation of `Layer::propagate` for output unit `o`:
`fActivation` starts at `m_pBiases[o]` and accumulates
`pInputs[i] * pWeights[i]` over the row. -/
noncomputable def Layer.activationSum (l : Layer) (pInputs : List ℝ) (o : ℕ) :
    ℝ :=
  (List.range l.inputCount).foldl
    (fun acc i => acc + pInputs.getD i 0 * l.weights.getD (l.inputCount * o + i) 0)
    (l.biases.getD o 0)

/-- `Layer::propagate`: `pOutputs[o] = transfer(fActivation)` for each
output unit `o`. -/
noncomputable def Layer.propagate (l : Layer) (pInputs : List ℝ) : List ℝ :=
  (List.range l.outputCount).map (fun o => transfer (l.activationSum pInputs o))

/-- `Layer::updateWeights`: for each output unit `o`, with
`fChange = pDeltas[o] * fLearningRate`, adds `fChange * pInputs[i]` to
`pWeights[i]` of row `o` and `fChange` to `m_pBiases[o]`.  The mutated flat
buffer is rebuilt row-major (row `o`, column `i` at index
`inputCount * o + i`, exactly the slots the loop writes). -/
noncomputable def Layer.updateWeights (l : Layer) (pInputs pDeltas : List ℝ)
    (fLearningRate : ℝ) : Layer :=
  { l with
    weights :=
      (List.range l.outputCount).flatMap (fun o =>
        (List.range l.inputCount).map (fun i =>
          l.weights.getD (l.inputCount * o + i) 0 +
            (pDeltas.getD o 0 * fLearningRate) * pInputs.getD i 0))
    biases :=
      (List.range l.outputCount).map (fun o =>
        l.biases.getD o 0 + pDeltas.getD o 0 * fLearningRate) }

/-- `Layer::computeOutputDeltas`: writes
`pDeltas[o] = fError * transferDerivative(fOutput)` with
`fError = pExpectedValues[o] - pOutputValues[o]`, and returns the
accumulated `fTotalQuadraticError = Σ fError * fError`.  Modelled as the
pair (deltas written, scalar returned). -/
noncomputable def Layer.computeOutputDeltas (l : Layer)
    (pOutputValues pExpectedValues : List ℝ) : List ℝ × ℝ :=
  ((List.range l.outputCount).map (fun o =>
      (pExpectedValues.getD o 0 - pOutputValues.getD o 0) *
        transferDerivative (pOutputValues.getD o 0)),
   (List.range l.outputCount).foldl
     (fun acc o =>
       acc + (pExpectedValues.getD o 0 - pOutputValues.getD o 0) *
         (pExpectedValues.getD o 0 - pOutputValues.getD o 0))
     0)

/-- `Layer::computeDeltas`: for each unit `o` of this layer, accumulates
`fError = Σ_i pNextDeltas[i] * pNextLayer.m_pWeights[m_outputCount * i + o]`
(note the stride is **this** layer's `m_outputCount`) and writes
`pDeltas[o] = fError * transferDerivative(pValues[o])`. -/
noncomputable def Layer.computeDeltas (l : Layer) (pNextLayer : Layer)
    (pNextDeltas pValues : List ℝ) : List ℝ :=
  (List.range l.outputCount).map (fun o =>
    ((List.range pNextLayer.outputCount).foldl
        (fun acc i =>
          acc + pNextDeltas.getD i 0 *
            pNextLayer.weights.getD (l.outputCount * i + o) 0)
        0) *
      transferDerivative (pValues.getD o 0))

/-! ## Generic list lemmas for the loop patterns -/

/-- A `foldl` that only accumulates additions over `List.range n` is the
starting value plus the corresponding finite sum. -/
lemma foldl_range_add (f : ℕ → ℝ) (init : ℝ) (n : ℕ) :
    (List.range n).foldl (fun acc i => acc + f i) init =
      init + ∑ i ∈ Finset.range n, f i := by
  induction n with
  | zero => simp
  | succ n ih =>
      rw [List.range_succ, List.foldl_append, ih]
      simp [Finset.sum_range_succ]
      ring

/-- Length of the row-major buffer rebuilt by `Layer.updateWeights`. -/
lemma length_flatMap_range_map (f : ℕ → ℕ → ℝ) (outC inC : ℕ) :
    ((List.range outC).flatMap (fun o => (List.range inC).map (f o))).length =
      outC * inC := by
  induction outC with
  | zero => simp
  | succ n ih =>
      rw [List.range_succ, List.flatMap_append]
      simp [ih, Nat.succ_mul]

/-- Reading slot `inC * o + i` of the row-major buffer gives entry `(o, i)`. -/
lemma getD_flatMap_range_map (f : ℕ → ℕ → ℝ) (outC inC o i : ℕ)
    (ho : o < outC) (hi : i < inC) :
    ((List.range outC).flatMap (fun o => (List.range inC).map (f o))).getD
        (inC * o + i) 0 = f o i := by
  induction outC with
  | zero => omega
  | succ n ih =>
      rw [List.range_succ, List.flatMap_append]
      rcases Nat.lt_succ_iff_lt_or_eq.mp ho with h | h
      · have hidx : inC * o + i < n * inC := by
          have h1 : inC * o + i < inC * (o + 1) := by
            rw [Nat.mul_succ]; omega
          have h2 : inC * (o + 1) ≤ inC * n := Nat.mul_le_mul_left inC h
          rw [Nat.mul_comm n inC]; omega
        rw [List.getD_append _ _ _ _ (by rw [length_flatMap_range_map]; exact hidx)]
        exact ih h
      · subst h
        have hlen :
            ((List.range o).flatMap (fun o => (List.range inC).map (f o))).length =
              o * inC := length_flatMap_range_map f o inC
        rw [List.getD_append_right _ _ _ _ (by rw [hlen, Nat.mul_comm]; omega)]
        rw [hlen]
        have hsub : inC * o + i - o * inC = i := by rw [Nat.mul_comm]; omega
        rw [hsub]
        have hi' : i < ((List.range inC).map (f o)).length := by simpa using hi
        rw [List.getD_eq_getElem _ _ (by simpa using hi')]
        simp

/-! ## Claims about the Layer operations -/

/-- **C6.** `Layer::propagate` writes
`outputs[o] = transfer (b[o] + Σ_i inputs[i] * W[o, i])` for every output
unit `o` of a layer with `inputs` of exactly `n_in` elements; it is a pure
function of the layer and the inputs (the embedding returns only the fresh
outputs buffer, leaving `W`, `b` and the dimensions untouched). -/
theorem propagate_spec (l : Layer) (pInputs : List ℝ)
    (hin : pInputs.length = l.inputCount) :
    (l.propagate pInputs).length = l.outputCount ∧
      ∀ o, o < l.outputCount →
        (l.propagate pInputs).getD o 0 =
          transfer (l.biases.getD o 0 +
            ∑ i ∈ Finset.range l.inputCount,
              pInputs.getD i 0 * l.weights.getD (l.inputCount * o + i) 0) := by
  refine ⟨by simp [Layer.propagate], ?_⟩
  intro o ho
  rw [List.getD_eq_getElem _ _ (by simpa [Layer.propagate] using ho)]
  simp only [Layer.propagate, List.getElem_map, List.getElem_range]
  rw [Layer.activationSum, foldl_range_add
    (fun i => pInputs.getD i 0 * l.weights.getD (l.inputCount * o + i) 0)]

/-- **C6 witness.** The 1×1 layer with weight 2 and bias 3 on input 5. -/
theorem propagate_spec_witness :
    ([(5 : ℝ)].length = (Layer.mk 1 1 [2] [3]).inputCount) ∧
      ((Layer.mk 1 1 [2] [3]).propagate [(5 : ℝ)]).length =
          (Layer.mk 1 1 [2] [3]).outputCount ∧
        ∀ o, o < (Layer.mk 1 1 [2] [3]).outputCount →
          ((Layer.mk 1 1 [2] [3]).propagate [(5 : ℝ)]).getD o 0 =
            transfer ((Layer.mk 1 1 [2] [3]).biases.getD o 0 +
              ∑ i ∈ Finset.range (Layer.mk 1 1 [2] [3]).inputCount,
                ([(5 : ℝ)].getD i 0 *
                  (Layer.mk 1 1 [2] [3]).weights.getD (1 * o + i) 0)) :=
  ⟨rfl, propagate_spec (Layer.mk 1 1 [2] [3]) [(5 : ℝ)] rfl⟩

/-- **C5.** `Layer::computeOutputDeltas` writes
`deltas[o] = (expected[o] - output[o]) * transferDerivative (output[o])`
for each unit and returns `Σ_o (expected[o] - output[o])^2`. -/
theorem computeOutputDeltas_spec (l : Layer)
    (pOutputValues pExpectedValues : List ℝ)
    (hov : pOutputValues.length = l.outputCount)
    (hev : pExpectedValues.length = l.outputCount) :
    ((l.computeOutputDeltas pOutputValues pExpectedValues).1.length =
        l.outputCount ∧
      ∀ o, o < l.outputCount →
        (l.computeOutputDeltas pOutputValues pExpectedValues).1.getD o 0 =
          (pExpectedValues.getD o 0 - pOutputValues.getD o 0) *
            transferDerivative (pOutputValues.getD o 0)) ∧
    (l.computeOutputDeltas pOutputValues pExpectedValues).2 =
      ∑ o ∈ Finset.range l.outputCount,
        (pExpectedValues.getD o 0 - pOutputValues.getD o 0) ^ 2 := by
  refine ⟨⟨by simp [Layer.computeOutputDeltas], ?_⟩, ?_⟩
  · intro o ho
    rw [List.getD_eq_getElem _ _ (by simpa [Layer.computeOutputDeltas] using ho)]
    simp [Layer.computeOutputDeltas]
  · show (List.range l.outputCount).foldl _ 0 = _
    rw [foldl_range_add (fun o =>
      (pExpectedValues.getD o 0 - pOutputValues.getD o 0) *
        (pExpectedValues.getD o 0 - pOutputValues.getD o 0))]
    simp [pow_two]

/-- **C5 witness.** A 1-output layer with output value 2 and target 5:
delta is `3 * transferDerivative 2` and the error is `9`. -/
theorem computeOutputDeltas_spec_witness :
    ([(2 : ℝ)].length = (Layer.mk 1 1 [7] [8]).outputCount) ∧
      ([(5 : ℝ)].length = (Layer.mk 1 1 [7] [8]).outputCount) ∧
      ((Layer.mk 1 1 [7] [8]).computeOutputDeltas [(2 : ℝ)] [(5 : ℝ)]).2 =
        ∑ o ∈ Finset.range 1,
          (([(5 : ℝ)].getD o 0 - [(2 : ℝ)].getD o 0) ^ 2) :=
  ⟨rfl, rfl,
    (computeOutputDeltas_spec (Layer.mk 1 1 [7] [8]) [(2 : ℝ)] [(5 : ℝ)]
      rfl rfl).2⟩

/-- **C2.** `Layer::computeDeltas` under the precondition
`nextLayer.n_in = this.n_out`: the code indexes the downstream weights with
stride `m_outputCount` (this layer's), which under the precondition is
exactly element `o` of row `k` of the downstream row-major matrix
(index `nextLayer.n_in * k + o`), so
`deltas[o] = (Σ_k nextDeltas[k] * W_next[k, o]) * transferDerivative (values[o])`. -/
theorem computeDeltas_spec (l pNextLayer : Layer) (pNextDeltas pValues : List ℝ)
    (hpre : pNextLayer.inputCount = l.outputCount)
    (hnd : pNextDeltas.length = pNextLayer.outputCount)
    (hv : pValues.length = l.outputCount) :
    (l.computeDeltas pNextLayer pNextDeltas pValues).length = l.outputCount ∧
      ∀ o, o < l.outputCount →
        (l.computeDeltas pNextLayer pNextDeltas pValues).getD o 0 =
          (∑ k ∈ Finset.range pNextLayer.outputCount,
              pNextDeltas.getD k 0 *
                pNextLayer.weights.getD (pNextLayer.inputCount * k + o) 0) *
            transferDerivative (pValues.getD o 0) := by
  refine ⟨by simp [Layer.computeDeltas], ?_⟩
  intro o ho
  rw [List.getD_eq_getElem _ _ (by simpa [Layer.computeDeltas] using ho)]
  simp only [Layer.computeDeltas, List.getElem_map, List.getElem_range]
  rw [foldl_range_add (fun i =>
    pNextDeltas.getD i 0 * pNextLayer.weights.getD (l.outputCount * i + o) 0)]
  rw [hpre, zero_add]

/-- **C2 witness.** A 2-unit layer feeding a 1-unit downstream layer. -/
theorem computeDeltas_spec_witness :
    ((Layer.mk 2 1 [4, 6] [9]).inputCount = (Layer.mk 1 2 [1, 1] [0, 0]).outputCount) ∧
      ([(3 : ℝ)].length = (Layer.mk 2 1 [4, 6] [9]).outputCount) ∧
      ([(7 : ℝ), 8].length = (Layer.mk 1 2 [1, 1] [0, 0]).outputCount) ∧
      ((Layer.mk 1 2 [1, 1] [0, 0]).computeDeltas (Layer.mk 2 1 [4, 6] [9])
          [(3 : ℝ)] [(7 : ℝ), 8]).length = 2 ∧
      ∀ o, o < (Layer.mk 1 2 [1, 1] [0, 0]).outputCount →
        ((Layer.mk 1 2 [1, 1] [0, 0]).computeDeltas (Layer.mk 2 1 [4, 6] [9])
            [(3 : ℝ)] [(7 : ℝ), 8]).getD o 0 =
          (∑ k ∈ Finset.range 1,
              [(3 : ℝ)].getD k 0 * [(4 : ℝ), 6].getD (2 * k + o) 0) *
            transferDerivative ([(7 : ℝ), 8].getD o 0) :=
  ⟨rfl, rfl, rfl,
    (computeDeltas_spec (Layer.mk 1 2 [1, 1] [0, 0]) (Layer.mk 2 1 [4, 6] [9])
        [(3 : ℝ)] [(7 : ℝ), 8] rfl rfl rfl).1,
    (computeDeltas_spec (Layer.mk 1 2 [1, 1] [0, 0]) (Layer.mk 2 1 [4, 6] [9])
        [(3 : ℝ)] [(7 : ℝ), 8] rfl rfl rfl).2⟩

/-- **C7.** `Layer::updateWeights` replaces `W[o,i]` by
`W[o,i] + learningRate * deltas[o] * inputs[i]` and `b[o]` by
`b[o] + learningRate * deltas[o]`, keeps the dimensions and buffer sizes,
and changes nothing else (the returned layer differs only in `weights` and
`biases`). -/
theorem updateWeights_spec (l : Layer) (pInputs pDeltas : List ℝ)
    (fLearningRate : ℝ) (hwf : l.WF)
    (hin : pInputs.length = l.inputCount)
    (hd : pDeltas.length = l.outputCount) :
    (l.updateWeights pInputs pDeltas fLearningRate).inputCount = l.inputCount ∧
      (l.updateWeights pInputs pDeltas fLearningRate).outputCount =
        l.outputCount ∧
      (l.updateWeights pInputs pDeltas fLearningRate).weights.length =
        l.weights.length ∧
      (l.updateWeights pInputs pDeltas fLearningRate).biases.length =
        l.biases.length ∧
      (∀ o i, o < l.outputCount → i < l.inputCount →
        (l.updateWeights pInputs pDeltas fLearningRate).weights.getD
            (l.inputCount * o + i) 0 =
          l.weights.getD (l.inputCount * o + i) 0 +
            fLearningRate * pDeltas.getD o 0 * pInputs.getD i 0) ∧
      ∀ o, o < l.outputCount →
        (l.updateWeights pInputs pDeltas fLearningRate).biases.getD o 0 =
          l.biases.getD o 0 + fLearningRate * pDeltas.getD o 0 := by
  obtain ⟨hw, hb⟩ := hwf
  refine ⟨rfl, rfl, ?_, ?_, ?_, ?_⟩
  · rw [Layer.updateWeights]
    simp only [length_flatMap_range_map]
    rw [hw, Nat.mul_comm]
  · simp [Layer.updateWeights, hb]
  · intro o i ho hi
    rw [Layer.updateWeights]
    simp only
    rw [getD_flatMap_range_map _ _ _ _ _ ho hi]
    ring
  · intro o ho
    rw [Layer.updateWeights]
    simp only
    rw [List.getD_eq_getElem _ _ (by simpa using ho)]
    simp only [List.getElem_map, List.getElem_range]
    ring

/-- **C7 witness.** A well-formed 1×1 layer updated with concrete values. -/
theorem updateWeights_spec_witness :
    (Layer.mk 1 1 [4] [5]).WF ∧
      ([(2 : ℝ)].length = 1) ∧ ([(3 : ℝ)].length = 1) ∧
      (((Layer.mk 1 1 [4] [5]).updateWeights [(2 : ℝ)] [(3 : ℝ)]
          (10 : ℝ)).weights.length = 1 ∧
        ∀ o, o < 1 →
          ((Layer.mk 1 1 [4] [5]).updateWeights [(2 : ℝ)] [(3 : ℝ)]
              (10 : ℝ)).biases.getD o 0 =
            [(5 : ℝ)].getD o 0 + 10 * [(3 : ℝ)].getD o 0) :=
  ⟨⟨rfl, rfl⟩, rfl, rfl,
    (updateWeights_spec (Layer.mk 1 1 [4] [5]) [(2 : ℝ)] [(3 : ℝ)] 10
        ⟨rfl, rfl⟩ rfl rfl).2.2.1,
    (updateWeights_spec (Layer.mk 1 1 [4] [5]) [(2 : ℝ)] [(3 : ℝ)] 10
        ⟨rfl, rfl⟩ rfl rfl).2.2.2.2.2⟩

/-- Any slot of an all-zero deltas buffer reads as `0` (in range or not). -/
lemma getD_replicate_zero (n k : ℕ) :
    (List.replicate n (0 : ℝ)).getD k 0 = 0 := by
  rcases Nat.lt_or_ge k n with h | h
  · rw [List.getD_eq_getElem _ _ (by simpa using h)]
    simp
  · rw [List.getD_eq_default _ _ (by simpa using h)]

/-- **C8.** Calling `Layer::updateWeights` with an all-zero deltas vector
leaves the layer unchanged: every weight and bias receives `+ 0`, so the
resulting buffers are identical to the originals. -/
theorem updateWeights_zero_deltas (l : Layer) (pInputs : List ℝ)
    (fLearningRate : ℝ) (hwf : l.WF) :
    l.updateWeights pInputs (List.replicate l.outputCount 0) fLearningRate =
      l := by
  obtain ⟨hw, hb⟩ := hwf
  obtain ⟨inC, outC, w, b⟩ := l
  simp only [Layer.WF] at hw hb
  simp only [Layer.updateWeights, Layer.mk.injEq, true_and]
  constructor
  · apply List.ext_getElem
    · rw [length_flatMap_range_map, hw]
      exact Nat.mul_comm outC inC
    · intro idx h1 h2
      rw [length_flatMap_range_map] at h1
      have hin0 : 0 < inC := by
        rcases Nat.eq_zero_or_pos inC with h0 | h0
        · subst h0; omega
        · exact h0
      have ho : idx / inC < outC := by
        rw [Nat.div_lt_iff_lt_mul hin0]; exact h1
      have hi : idx % inC < inC := Nat.mod_lt _ hin0
      have hidx : inC * (idx / inC) + idx % inC = idx := Nat.div_add_mod idx inC
      rw [← List.getD_eq_getElem _ (0 : ℝ)
            (by rw [length_flatMap_range_map]; exact h1),
          ← List.getD_eq_getElem _ (0 : ℝ) h2]
      rw [← hidx]
      rw [getD_flatMap_range_map _ _ _ _ _ ho hi]
      rw [getD_replicate_zero]
      ring
  · apply List.ext_getElem
    · simp [hb]
    · intro o h1 h2
      simp only [List.getElem_map, List.getElem_range]
      rw [getD_replicate_zero]
      rw [List.getD_eq_getElem _ _ h2]
      ring

/-- **C8 witness.** A concrete well-formed 1×1 layer is bit-identical after
a zero-delta update. -/
theorem updateWeights_zero_deltas_witness :
    (Layer.mk 1 1 [(4 : ℝ)] [(5 : ℝ)]).WF ∧
      (Layer.mk 1 1 [(4 : ℝ)] [(5 : ℝ)]).updateWeights [(2 : ℝ)]
          (List.replicate 1 0) (10 : ℝ) =
        Layer.mk 1 1 [(4 : ℝ)] [(5 : ℝ)] :=
  ⟨⟨rfl, rfl⟩,
    updateWeights_zero_deltas (Layer.mk 1 1 [(4 : ℝ)] [(5 : ℝ)]) [(2 : ℝ)] 10
      ⟨rfl, rfl⟩⟩

/-! ## Claims about construction and initialization -/

/-- A single draw lies in the closed interval `[0.5, 0.9]`:
`rand()` returns a value in `0 .. RAND_MAX` **inclusive**, so the quotient
ranges over `[0, 1]` including both endpoints. -/
lemma randomFloat_mem_Icc (randMax r : ℕ) (hmax : 0 < randMax)
    (hr : r ≤ randMax) :
    randomFloat randMax r ∈ Set.Icc (0.5 : ℝ) 0.9 := by
  have hpos : (0 : ℝ) < (randMax : ℝ) := by exact_mod_cast hmax
  have h0 : (0 : ℝ) ≤ (r : ℝ) / (randMax : ℝ) :=
    div_nonneg (by positivity) (le_of_lt hpos)
  have h1 : (r : ℝ) / (randMax : ℝ) ≤ 1 := by
    rw [div_le_one hpos]
    exact_mod_cast hr
  constructor <;> (rw [randomFloat]; nlinarith)

/-- **C4 (amended).** Every weight and bias of a freshly constructed layer
equals `0.5 + 0.4 * u` with `u = rand()/RAND_MAX ∈ [0, 1]`, hence lies in
the **closed** interval `[0.5, 0.9]` (the right endpoint is attained when
`rand()` returns `RAND_MAX`). -/
theorem construct_mem_Icc (randMax : ℕ) (rand : ℕ → ℕ)
    (inputCount outputCount : ℕ) (hmax : 0 < randMax)
    (hr : ∀ k, rand k ≤ randMax) :
    (∀ x ∈ (Layer.construct randMax rand inputCount outputCount).weights,
        x ∈ Set.Icc (0.5 : ℝ) 0.9) ∧
      ∀ x ∈ (Layer.construct randMax rand inputCount outputCount).biases,
        x ∈ Set.Icc (0.5 : ℝ) 0.9 := by
  constructor <;>
    · intro x hx
      simp only [Layer.construct, randomize, List.mem_map] at hx
      obtain ⟨i, _, rfl⟩ := hx
      exact randomFloat_mem_Icc randMax _ hmax (hr _)

/-- **C4 amended-claim witness.** `RAND_MAX = 32767` with a constant-zero
stream on a 1×1 layer. -/
theorem construct_mem_Icc_witness :
    0 < 32767 ∧
      ((∀ x ∈ (Layer.construct 32767 (fun _ => 0) 1 1).weights,
          x ∈ Set.Icc (0.5 : ℝ) 0.9) ∧
        ∀ x ∈ (Layer.construct 32767 (fun _ => 0) 1 1).biases,
          x ∈ Set.Icc (0.5 : ℝ) 0.9) :=
  ⟨by norm_num,
    construct_mem_Icc 32767 (fun _ => 0) 1 1 (by norm_num) (fun _ => Nat.zero_le _)⟩

/-- **C4 counterexample.** With `RAND_MAX = 32767` and a stream that
returns `RAND_MAX` (a value `rand()` can produce), the single weight of a
1×1 layer is exactly `0.9`, which is **not** in the half-open interval
`[0.5, 0.9)` claimed by the spec. -/
theorem construct_attains_right_endpoint :
    (Layer.construct 32767 (fun _ => 32767) 1 1).weights.getD 0 0 = 0.9 ∧
      (Layer.construct 32767 (fun _ => 32767) 1 1).weights.getD 0 0 ∉
        Set.Ico (0.5 : ℝ) 0.9 := by
  have h : (Layer.construct 32767 (fun _ => 32767) 1 1).weights.getD 0 0 =
      (0.9 : ℝ) := by
    simp [Layer.construct, randomize, randomFloat, List.range_succ]
    norm_num
  refine ⟨h, ?_⟩
  rw [h]
  simp [Set.mem_Ico]

/-- **C9 (amended).** Construction with `n_in = 0` is *not* rejected: the
constructor runs no validation (`new float[0]` is well-defined), producing
a layer with an empty weight buffer and `n_out` randomized biases that is
fully usable — `propagate` on the empty input succeeds and yields one
output per unit. -/
theorem construct_zero_width_usable (randMax : ℕ) (rand : ℕ → ℕ) (n : ℕ) :
    (Layer.construct randMax rand 0 n).WF ∧
      (Layer.construct randMax rand 0 n).weights = [] ∧
      (Layer.construct randMax rand 0 n).biases.length = n ∧
      ((Layer.construct randMax rand 0 n).propagate []).length = n := by
  refine ⟨⟨?_, ?_⟩, ?_, ?_, ?_⟩ <;>
    simp [Layer.construct, Layer.propagate, randomize]

/-- **C9 counterexample.** The concrete zero-input layer
`Layer(0, 1)` (with `RAND_MAX = 32767` and a constant-zero `rand` stream)
is constructed rather than rejected, and is usable: propagating the empty
input yields the single output `transfer 0.5 = 0.5`. -/
theorem construct_zero_width_not_rejected :
    (Layer.construct 32767 (fun _ => 0) 0 1).propagate [] = [(0.5 : ℝ)] := by
  simp [Layer.construct, Layer.propagate, Layer.activationSum, randomize,
    randomFloat, List.range_succ]
  rw [transfer, elu, if_pos (by norm_num)]

/-- **C10.** For a layer constructed with input width `0`, `propagate` on
the empty input writes `outputs[o] = transfer (b[o])` for every output
unit `o`: the weighted-sum loop body runs zero times, leaving the bias. -/
theorem propagate_zero_input_spec (randMax : ℕ) (rand : ℕ → ℕ) (n : ℕ) :
    ((Layer.construct randMax rand 0 n).propagate []).length = n ∧
      ∀ o, o < n →
        ((Layer.construct randMax rand 0 n).propagate []).getD o 0 =
          transfer ((Layer.construct randMax rand 0 n).biases.getD o 0) := by
  refine ⟨by simp [Layer.construct, Layer.propagate, randomize], ?_⟩
  intro o ho
  have hlen : o < ((Layer.construct randMax rand 0 n).propagate []).length := by
    simpa [Layer.construct, Layer.propagate, randomize] using ho
  rw [List.getD_eq_getElem _ _ hlen]
  simp only [Layer.propagate, List.getElem_map, List.getElem_range]
  rw [Layer.activationSum]
  simp [Layer.construct]

/-! ## NeuralNet (main.cpp lines 163-221) -/

/-- The `NeuralNet` struct: `m_hiddenLayer` and `m_outputLayer`. -/
structure NeuralNet where
  hiddenLayer : Layer
  outputLayer : Layer

/-- `NeuralNet::train`, mirrored statement by statement: for each epoch
(`epoch = 0 .. epochCount`), reset the error accumulator, and for each
example (`test = 0 .. testCount`) slice the flat buffers at
`test * inputCount` / `test * outputCount`, propagate forward, compute the
output deltas (accumulating the quadratic error), compute the hidden deltas
**against the current (pre-update) output layer**, then update the output
and hidden layers.  The `printf` per epoch is modelled by appending the
epoch's total error to the returned report list. -/
noncomputable def NeuralNet.train (net : NeuralNet)
    (pAllInputs pAllExpectedOutputs : List ℝ) (testCount epochCount : ℕ)
    (fLearningRate : ℝ) : NeuralNet × List ℝ :=
  let inputCount := net.hiddenLayer.inputCount
  let outputCount := net.outputLayer.outputCount
  (List.range epochCount).foldl
    (fun st _epoch =>
      let r :=
        (List.range testCount).foldl
          (fun st2 test =>
            let pInputs := (pAllInputs.drop (test * inputCount)).take inputCount
            let pExpectedOutputs :=
              (pAllExpectedOutputs.drop (test * outputCount)).take outputCount
            let pHiddenValues := st2.1.hiddenLayer.propagate pInputs
            let pOutputValues := st2.1.outputLayer.propagate pHiddenValues
            let res :=
              st2.1.outputLayer.computeOutputDeltas pOutputValues
                pExpectedOutputs
            let pHiddenDeltas :=
              st2.1.hiddenLayer.computeDeltas st2.1.outputLayer res.1
                pHiddenValues
            (NeuralNet.mk
                (st2.1.hiddenLayer.updateWeights pInputs pHiddenDeltas
                  fLearningRate)
                (st2.1.outputLayer.updateWeights pHiddenValues res.1
                  fLearningRate),
              st2.2 + res.2))
          (st.1, 0)
      (r.1, st.2 ++ [r.2]))
    (net, [])

/-! ## Spec-side description of training (spec §4.2), for the refinement -/

/-- The spec's steps 1-4 for one example: forward through both layers,
output deltas (returning the squared error), hidden deltas read from the
**pre-update** output layer, and only then the two weight updates. -/
noncomputable def specTrainStep (fLearningRate : ℝ) (net : NeuralNet)
    (ex : List ℝ × List ℝ) : NeuralNet × ℝ :=
  let hiddenValues := net.hiddenLayer.propagate ex.1
  let outputValues := net.outputLayer.propagate hiddenValues
  let outputRes := net.outputLayer.computeOutputDeltas outputValues ex.2
  let hiddenDeltas :=
    net.hiddenLayer.computeDeltas net.outputLayer outputRes.1 hiddenValues
  (NeuralNet.mk
      (net.hiddenLayer.updateWeights ex.1 hiddenDeltas fLearningRate)
      (net.outputLayer.updateWeights hiddenValues outputRes.1 fLearningRate),
    outputRes.2)

/-- One spec epoch: fold the per-example step over the example list in its
given order, accumulating the squared errors from zero. -/
noncomputable def specEpoch (fLearningRate : ℝ)
    (examples : List (List ℝ × List ℝ)) (net : NeuralNet) : NeuralNet × ℝ :=
  examples.foldl
    (fun acc ex =>
      let r := specTrainStep fLearningRate acc.1 ex
      (r.1, acc.2 + r.2))
    (net, 0)

/-- The ordered example list: example `t` is the `t`-th slice of the two
parallel flat buffers. -/
def specExampleList (pAllInputs pAllExpectedOutputs : List ℝ)
    (inputCount outputCount testCount : ℕ) : List (List ℝ × List ℝ) :=
  (List.range testCount).map (fun t =>
    ((pAllInputs.drop (t * inputCount)).take inputCount,
      (pAllExpectedOutputs.drop (t * outputCount)).take outputCount))

/-- Spec-level training: exactly `epochCount` applications of `specEpoch`,
each contributing one entry to the error report, no early stopping. -/
noncomputable def specTrain (net : NeuralNet)
    (examples : List (List ℝ × List ℝ)) (epochCount : ℕ)
    (fLearningRate : ℝ) : NeuralNet × List ℝ :=
  (List.range epochCount).foldl
    (fun st _epoch =>
      let r := specEpoch fLearningRate examples st.1
      (r.1, st.2 ++ [r.2]))
    (net, [])

/-- A fold over `List.range n` that appends one report entry per iteration
grows the report by exactly `n` entries. -/
lemma foldl_range_report_length {α : Type} (f : α × List ℝ → α × ℝ) (n : ℕ)
    (st : α × List ℝ) :
    ((List.range n).foldl
        (fun st _ => ((f st).1, st.2 ++ [(f st).2])) st).2.length =
      st.2.length + n := by
  induction n generalizing st with
  | zero => simp
  | succ n ih =>
      rw [List.range_succ, List.foldl_append]
      simp only [List.foldl_cons, List.foldl_nil, List.length_append,
        List.length_singleton]
      rw [ih st]
      omega

/-- **C3.** `NeuralNet::train` performs exactly `epochCount` epochs (one
error report per epoch, no early stopping) and refines the spec's
decomposition: each epoch folds the per-example step over the examples in
the fixed order `0 .. N-1`, and within each example the hidden deltas are
computed from the output layer's **pre-update** weight matrix
(`specTrainStep` reads `net.outputLayer` for `computeDeltas`), with both
weight updates applied only after both delta computations. -/
theorem train_refines_spec (net : NeuralNet)
    (pAllInputs pAllExpectedOutputs : List ℝ) (testCount epochCount : ℕ)
    (fLearningRate : ℝ) :
    net.train pAllInputs pAllExpectedOutputs testCount epochCount
        fLearningRate =
      specTrain net
        (specExampleList pAllInputs pAllExpectedOutputs
          net.hiddenLayer.inputCount net.outputLayer.outputCount testCount)
        epochCount fLearningRate ∧
      (net.train pAllInputs pAllExpectedOutputs testCount epochCount
          fLearningRate).2.length = epochCount := by
  have hmain :
      net.train pAllInputs pAllExpectedOutputs testCount epochCount
          fLearningRate =
        specTrain net
          (specExampleList pAllInputs pAllExpectedOutputs
            net.hiddenLayer.inputCount net.outputLayer.outputCount testCount)
          epochCount fLearningRate := by
    rw [NeuralNet.train, specTrain]
    apply List.foldl_ext
    intro st e _he
    simp only [specEpoch, specExampleList, List.foldl_map, specTrainStep]
  refine ⟨hmain, ?_⟩
  rw [hmain, specTrain]
  have hlen :=
    foldl_range_report_length
      (fun st : NeuralNet × List ℝ =>
        specEpoch fLearningRate
          (specExampleList pAllInputs pAllExpectedOutputs
            net.hiddenLayer.inputCount net.outputLayer.outputCount testCount)
          st.1)
      epochCount (net, [])
  simpa using hlen
